import Mathlib

/-!
# nausea: sample-to-spectrum-to-grid pipeline

A shallow embedding of `src/nausea.c` (the functions `clearall`, `init`, `update`,
`setcolor` and `draw_spectrum`) together with the properties of the pipeline that the
specification states.

Conventions of the embedding.

* C integers are `Nat`/`Int` values; every conversion between integer types that the
  C code performs is written out (`toSizeT`, `toInt`, reduction modulo `2^32` or `2^64`).
* Arrays are lists; a read or a write outside the allocated length yields `none`.
* `double` values that hold a 16-bit sample, the sum of two of them or half of that sum
  are exact in binary64, so the mono buffer `in` is a list of rationals.
* The two `double` products of `draw_spectrum` (by `BANDCUT` and by `BARSCALE`) are
  evaluated in binary64 with round-to-nearest-even (`round53`, `dmul`), each operation
  rounded once, as on a target that evaluates `double` expressions in `double`.
* Operations that C leaves undefined are either failures (`none`: an access outside an
  array, a division by zero) or wrap around (a conversion or an increment that leaves the
  range of its type); the theorems state the ranges in which no wrap-around occurs.
* `read`, `cabs` and `fftw_execute` are library calls: their results are inputs.
-/

namespace Nausea

/-! ## Machine integers -/

/-- Conversion of a signed integer to `size_t` (64 bits): reduction modulo `2^64`. -/
def toSizeT (x : Int) : Nat := (x % 2 ^ 64).toNat

/-- Conversion of an integer to `int` (32 bits, two's complement wrap-around). -/
def toInt (x : Int) : Int := (x + 2 ^ 31) % 2 ^ 32 - 2 ^ 31

/-- The macro `MIN(x, y) ((x) < (y) ? (x) : (y))`. -/
def MIN (x y : Nat) : Nat := if x < y then x else y

/-! ## Constants -/

/-- Modelled from the spec: `config.h` is not among the sources; the spec fixes the
channel count to 2 and `update` reads `buf[i * CHANNELS + 0]` and `buf[i * CHANNELS + 1]`
("average the two CHANNELS"). -/
def CHANNELS : Nat := 2

/-- The global `static unsigned nsamples = 48000 * CHANNELS;`. -/
def nsamples : Nat := 48000 * CHANNELS % 2 ^ 32

/-- The sentinel `#define PK_HIDDEN -1`. -/
def PK_HIDDEN : Int := -1

/-! ## Generic `for` loop and checked array access -/

/-- Run `body i` for `i = start, start + 1, ...`, `count` times; stop with `none` as soon
as one iteration fails. -/
def forFrom {σ : Type} (body : Nat → σ → Option σ) : Nat → Nat → σ → Option σ
  | _, 0, s => some s
  | start, count + 1, s =>
    match body start s with
    | none => none
    | some s1 => forFrom body (start + 1) count s1

/-- The loop `for (i = 0; i < n; i++) body`. -/
def forLoop {σ : Type} (n : Nat) (body : Nat → σ → Option σ) (s : σ) : Option σ :=
  forFrom body 0 n s

/-- The assignment `xs[i] = v`; `none` when `i` is outside the array. -/
def store {α : Type} (xs : List α) (i : Nat) (v : α) : Option (List α) :=
  if i < xs.length then some (xs.set i v) else none

/-- The compound assignment `xs[i] op= ...`, the new value being `f xs[i]`. -/
def modify {α : Type} (xs : List α) (i : Nat) (f : α → α) : Option (List α) :=
  match xs[i]? with
  | none => none
  | some x => some (xs.set i (f x))

/-! ## The frame -/

/-- A value of the C type `complex` (real and imaginary part). -/
structure complex where
  re : ℚ
  im : ℚ
  deriving DecidableEq

/-- The fields of `struct frame` that the pipeline computes with (`fd`, `sav` and `plan`
are handles of the operating system and of the transform library). The field `in` of the C
structure is called `in_` here. -/
structure frame where
  width : Nat
  width_old : Nat
  height : Nat
  peak : List Int
  buf : List Int
  res : List Nat
  in_ : List ℚ
  gotsamples : Int
  out : List complex

/-- One iteration of the loop of `clearall`: `in[i] = 0.; out[i] = 0. + 0. * I;`. -/
def clearall_body (i : Nat) (fr : frame) : Option frame :=
  match store fr.in_ i 0 with
  | none => none
  | some in1 =>
    match store fr.out i ⟨0, 0⟩ with
    | none => none
    | some out1 => some { fr with in_ := in1, out := out1 }

/-- The function `clearall`. -/
def clearall (fr : frame) : Option frame :=
  forLoop (nsamples / CHANNELS) clearall_body { fr with gotsamples := 0 }

/-- The function `init`: the four buffers are allocated (`buf` with `nsamples` entries, the
other three with `nsamples / CHANNELS` entries) and `clearall` is run. The contents that
`malloc` leaves in the buffers are indeterminate; they are taken to be 0 here. The frame was
zeroed by `memset` in `main`, so `peak` is the null pointer (an empty array). -/
def init : Option frame :=
  clearall
    { width := 0, width_old := 0, height := 0, peak := [],
      buf := List.replicate nsamples 0,
      res := List.replicate (nsamples / CHANNELS) 0,
      in_ := List.replicate (nsamples / CHANNELS) 0,
      gotsamples := 0,
      out := List.replicate (nsamples / CHANNELS) ⟨0, 0⟩ }

/-- The outcome of `read(fr->fd, fr->buf, nsamples * sizeof(int16_t))`: the returned byte
count `n` (or `-1`) and the contents of `buf` after the call, as 16-bit samples. -/
structure read_result where
  n : Int
  buf : List Int

/-- One iteration of the loop of `update`. The comparison `i < fr->gotsamples / CHANNELS`
is made in the signed type `ssize_t`, with C's truncating division. -/
def update_body (i : Nat) (fr : frame) : Option frame :=
  match store fr.in_ i 0 with
  | none => none
  | some in1 =>
    if (i : Int) < Int.tdiv fr.gotsamples (CHANNELS : Int) then
      match fr.buf[i * CHANNELS + 0]?, fr.buf[i * CHANNELS + 1]? with
      | some a, some b =>
        match store in1 i (a : ℚ) with
        | none => none
        | some in2 =>
          match modify in2 i (fun x => x + (b : ℚ)) with
          | none => none
          | some in3 =>
            match modify in3 i (fun x => x / (CHANNELS : ℚ)) with
            | none => none
            | some in4 => some { fr with in_ := in4 }
      | _, _ => none
    else some { fr with in_ := in1 }

/-- The function `update`. `fftw_execute` stands for the forward transform bound to the
buffers `in` and `out`; the only visualisation, the spectrum, needs it (`dft = 1`). The
sample count is `n / sizeof(int16_t)`, a division in `size_t`. -/
def update (fftw_execute : List ℚ → List complex → List complex) (fr : frame)
    (rd : read_result) : Option frame :=
  let fr0 := { fr with buf := rd.buf }
  if rd.n = -1 then clearall fr0
  else
    match forLoop (nsamples / CHANNELS) update_body
        { fr0 with gotsamples := ((toSizeT rd.n / 2 : Nat) : Int) } with
    | none => none
    | some fr1 => some { fr1 with out := fftw_execute fr1.in_ fr1.out }

/-- The buffers of the frame have the lengths that `init` allocates. -/
def allocated (fr : frame) : Prop :=
  fr.buf.length = nsamples ∧ fr.res.length = nsamples / CHANNELS ∧
    fr.in_.length = nsamples / CHANNELS ∧ fr.out.length = nsamples / CHANNELS

/-! ## binary64 arithmetic -/

/-- A finite non-negative `double`: the value `num / 2 ^ scale`, where `num` has at most
53 significant bits. -/
structure binary64 where
  num : Nat
  scale : Nat
  deriving DecidableEq

/-- Search for the number of low bits to drop (first argument: remaining steps). -/
def normShiftAux : Nat → Nat → Nat
  | 0, _ => 0
  | f + 1, p => if p < 2 ^ 53 then 0 else normShiftAux f (p / 2) + 1

/-- The least `s` with `p < 2 ^ (53 + s)`: the number of low bits of `p` that do not fit
into a 53-bit significand. -/
def normShift (p : Nat) : Nat := normShiftAux p p

/-- Rounding of a natural number to 53 significant bits, to nearest, ties to even: the
rounding that every binary64 operation applies to its exact result. -/
def round53 (p : Nat) : Nat :=
  let e := 2 ^ normShift p
  let t := p / e
  let r := p % e
  if 2 * r < e ∨ (2 * r = e ∧ t % 2 = 0) then t * e else (t + 1) * e

/-- Conversion of an unsigned integer to `double`. -/
def binary64.ofNat (n : Nat) : binary64 := ⟨round53 n, 0⟩

/-- The binary64 product `a * b`. -/
def dmul (a b : binary64) : binary64 := ⟨round53 (a.num * b.num), a.scale + b.scale⟩

/-- Conversion of a `double` to an integer: the fraction is discarded. -/
def binary64.trunc (d : binary64) : Nat := d.num / 2 ^ d.scale

/-- The rational value of a `double`. -/
def binary64.toRat (d : binary64) : ℚ := (d.num : ℚ) / 2 ^ d.scale

/-- The literal `0.03` of `#define BANDCUT 0.03`: the binary64 number nearest to 3/100,
`0x1EB851EB851EB8 / 2^58`. -/
def BANDCUT : binary64 := ⟨0x1EB851EB851EB8, 58⟩

/-- The literal `0.05` of `#define BARSCALE 0.05`: the binary64 number nearest to 1/20,
`0x1999999999999A / 2^57`. -/
def BARSCALE : binary64 := ⟨0x1999999999999A, 57⟩

/-! ## Colour bands -/

/-- An entry of the table `color_ranges` (`struct color_range`). -/
structure color_range where
  pair : Int
  min : Int
  max : Int
  fg : Int
  bg : Int
  scaled_min : Int
  scaled_max : Int
  deriving DecidableEq

/-- Colour numbers of curses. -/
def COLOR_RED : Int := 1

/-- Colour numbers of curses. -/
def COLOR_GREEN : Int := 2

/-- Colour numbers of curses. -/
def COLOR_YELLOW : Int := 3

/-- Colour numbers of curses. -/
def COLOR_BLUE : Int := 4

/-- Colour numbers of curses. -/
def COLOR_CYAN : Int := 6

/-- Colour numbers of curses. -/
def COLOR_WHITE : Int := 7

/-- The static table `color_ranges[]`. -/
def color_ranges : List color_range :=
  [ ⟨1, 0, 5, COLOR_RED, -1, 0, 0⟩,
    ⟨2, 5, 20, COLOR_YELLOW, -1, 0, 0⟩,
    ⟨3, 20, 40, COLOR_GREEN, -1, 0, 0⟩,
    ⟨4, 40, 72, COLOR_WHITE, -1, 0, 0⟩,
    ⟨5, 72, 85, COLOR_CYAN, -1, 0, 0⟩,
    ⟨6, 85, 98, COLOR_BLUE, -1, 0, 0⟩,
    ⟨7, 98, 100, COLOR_GREEN, -1, 0, 0⟩ ]

/-- The body of the loop "scale color ranges" of `draw_spectrum`:
`cr->scaled_min = cr->min * fr->height / 100;` and the same for `max`. The product and the
quotient are computed in `size_t`, the result is stored in an `int`. -/
def scale_range (height : Nat) (cr : color_range) : color_range :=
  { cr with
    scaled_min := toInt ((toSizeT cr.min * height % 2 ^ 64 / 100 : Nat) : Int),
    scaled_max := toInt ((toSizeT cr.max * height % 2 ^ 64 / 100 : Nat) : Int) }

/-- The loop "scale color ranges" of `draw_spectrum`. -/
def scale_color_ranges (height : Nat) (ranges : List color_range) : List color_range :=
  ranges.map (scale_range height)

/-- The test `y >= cr->scaled_min && y < cr->scaled_max` of `setcolor`. -/
def in_band (y : Int) (cr : color_range) : Bool :=
  decide (y ≥ cr.scaled_min) && decide (y < cr.scaled_max)

/-- The function `setcolor`: the first band of the table that contains row `y`, with the
flag telling whether its colour pair is switched on or off; nothing when colours are
disabled or no band contains `y`. -/
def setcolor (colors : Bool) (ranges : List color_range) (on_ : Int) (y : Int) :
    Option (Bool × Int) :=
  if colors then (ranges.find? (in_band y)).map (fun cr => (decide (on_ ≠ 0), cr.pair))
  else none

/-! ## `draw_spectrum` -/

/-- The statement `freqs_per_col = (nsamples / CHANNELS) / fr->width * BANDCUT;`: an
unsigned division, a division in `size_t` (undefined for width 0), the conversion of the
quotient to `double`, the binary64 product and the conversion to `unsigned`. -/
def freqs_per_col (width : Nat) : Option Nat :=
  if width = 0 then none
  else some (binary64.trunc
    (dmul (binary64.ofNat (nsamples / CHANNELS / width)) BANDCUT) % 2 ^ 32)

/-- The body of the loop "scale each frequency to screen". `res` is an array of
`unsigned`: each of the three assignments converts its result to an integer. -/
def scale_body (cabs : complex → binary64) (i : Nat) (fr : frame) : Option frame :=
  match fr.out[i]? with
  | none => none
  | some z =>
    match store fr.res i (binary64.trunc (cabs z) % 2 ^ 32) with
    | none => none
    | some res1 =>
      match modify res1 i (fun r => r / (nsamples / CHANNELS)) with
      | none => none
      | some res2 =>
        match modify res2 i (fun r => binary64.trunc
            (dmul (binary64.ofNat r) (dmul (binary64.ofNat fr.height) BARSCALE)) % 2 ^ 32) with
        | none => none
        | some res3 => some { fr with res := res3 }

/-- The loop `for (i = 0; i < nsamples / 1; i++)` that scales the magnitudes. -/
def scale_freqs (cabs : complex → binary64) (fr : frame) : Option frame :=
  forLoop (nsamples / 1) (scale_body cabs) fr

/-- The computation of `bar_height` for column `i`: the sum of `freqs_per_col` entries of
`res` (the index is computed in `unsigned`, the sum in `size_t`), divided by
`freqs_per_col`; `none` when an index is outside `res` or the divisor is zero. -/
def bar_height (res : List Nat) (fpc i : Nat) : Option Nat :=
  match forLoop fpc (fun j acc =>
      match res[(i * fpc + j) % 2 ^ 32]? with
      | none => none
      | some r => some ((acc + r) % 2 ^ 64)) 0 with
  | none => none
  | some sum => if fpc = 0 then none else some (sum / fpc)

/-- The row `ybegin = fr->height - MIN(bar_height, fr->height)`. -/
def bar_top (height bh : Nat) : Nat := height - MIN bh height

/-- The update of `fr->peak[i]` in `draw_spectrum` (peaks enabled):
`if (peak[i] >= ybegin) peak[i] = ybegin; else peak[i]++;` followed by
`if (height == ybegin && peak[i] == ybegin) peak[i] = PK_HIDDEN;`. Both comparisons convert
the `int` peak to `size_t`; the assignment `fr->peak[i] = ybegin` converts back. -/
def peak_update (height ybegin : Nat) (pk : Int) : Int :=
  let pk1 := if toSizeT pk ≥ ybegin then toInt (ybegin : Int) else toInt (pk + 1)
  if height = ybegin ∧ toSizeT pk1 = ybegin then PK_HIDDEN else pk1

/-- The test `fr->peak[i] != PK_HIDDEN` of "output peaks": the row at which the peak glyph
is printed, if any. -/
def peak_cell (pk : Int) : Option Int := if pk ≠ PK_HIDDEN then some pk else none

/-- What `draw_spectrum` prints in one column: the rows of the bar and the row of the peak
glyph. -/
structure column where
  bars : List Nat
  peak_row : Option Int
  deriving DecidableEq

/-- The body of the loop over the columns of `draw_spectrum`. -/
def column_body (peaks : Bool) (fpc : Nat) (i : Nat) (st : frame × List column) :
    Option (frame × List column) :=
  match bar_height st.1.res fpc i with
  | none => none
  | some bh =>
    let ybegin := bar_top st.1.height bh
    let yend := st.1.height
    let bars := List.range' ybegin (yend - ybegin)
    if peaks then
      match st.1.peak[i]? with
      | none => none
      | some pk =>
        let pk1 := peak_update st.1.height ybegin pk
        some ({ st.1 with peak := st.1.peak.set i pk1 }, st.2 ++ [⟨bars, peak_cell pk1⟩])
    else some (st.1, st.2 ++ [⟨bars, none⟩])

/-- The function `draw_spectrum`; `COLS` and `LINES` are the terminal dimensions, `int`
variables of curses. The result is the new frame, the scaled colour table and the columns
printed. -/
def draw_spectrum (cabs : complex → binary64) (peaks colors : Bool) (COLS LINES : Int)
    (ranges : List color_range) (fr : frame) :
    Option (frame × List color_range × List column) :=
  let fr1 := { fr with width := toSizeT COLS, height := toSizeT LINES }
  let fr2 := if peaks = true ∧ fr1.width ≠ fr1.width_old then
      { fr1 with peak := List.replicate fr1.width PK_HIDDEN, width_old := fr1.width }
    else fr1
  let ranges1 := if colors then scale_color_ranges fr2.height ranges else ranges
  match freqs_per_col fr2.width with
  | none => none
  | some fpc =>
    match scale_freqs cabs fr2 with
    | none => none
    | some fr3 =>
      match forLoop fr3.width (column_body peaks fpc) (fr3, []) with
      | none => none
      | some st => some (st.1, ranges1, st.2)

/-- The peak of a column after `k` ticks on each of which the bar height of the column is
0 (`ybegin = bar_top height 0`) and the width does not change. -/
def falling_peak (height : Nat) (k : Nat) (pk : Int) : Int :=
  (peak_update height (bar_top height 0))^[k] pk

/-! ## Reference values and sample inputs -/

/-- The magnitude that the specification describes for a bin: the transform magnitude `m`
divided by `nsamples / CHANNELS` and multiplied by `height * BAR_SCALE`, `BAR_SCALE` being
1/20, as a rational number. -/
def spec_magnitude (m : ℚ) (height : Nat) : ℚ :=
  m / ((nsamples / CHANNELS : Nat) : ℚ) * ((height : ℚ) * (1 / 20))

/-- The number of bins per column that the specification describes, with the exact
quotient `(nsamples / CHANNELS) / width` and `BAND_CUT` being 3/100. -/
def spec_freqs_per_col (width : Nat) : Nat :=
  ⌊((nsamples / CHANNELS : Nat) : ℚ) / (width : ℚ) * (3 / 100)⌋₊

/-- The function `cabs` on the real axis at integer points, where the modulus is the
absolute value of the real part; used to evaluate the scaling on sample frames whose
spectrum has such entries only. -/
def cabs_axis (z : complex) : binary64 := ⟨round53 z.re.num.natAbs, 0⟩

/-- A spectrum with the entries `96000000`, `1`, `0`, `0`, ... -/
def sample_out : List complex := ⟨96000000, 0⟩ :: ⟨1, 0⟩ :: List.replicate 47998 ⟨0, 0⟩

/-- A frame as allocated by `init`, on a terminal of 80 columns and 20 lines, holding the
spectrum `sample_out`. -/
def sample_frame : frame :=
  { width := 80, width_old := 80, height := 20, peak := List.replicate 80 PK_HIDDEN,
    buf := List.replicate nsamples 0,
    res := List.replicate (nsamples / CHANNELS) 0,
    in_ := List.replicate (nsamples / CHANNELS) 0,
    gotsamples := 0,
    out := sample_out }

/-- A block of samples that starts with 100, 300, -7, 8. -/
def sample_buf : List Int := 100 :: 300 :: -7 :: 8 :: List.replicate 95996 0

/-- A read of 6 bytes (three samples) that leaves `sample_buf` in `buf`; the fourth sample
is left over from an earlier read. -/
def sample_read : read_result := { n := 6, buf := sample_buf }

/-! ## Rounding to 53 bits -/

theorem normShiftAux_spec : ∀ f p : Nat, p < 2 ^ 53 * 2 ^ f →
    p < 2 ^ 53 * 2 ^ normShiftAux f p ∧
      (normShiftAux f p = 0 ∨ 2 ^ 52 * 2 ^ normShiftAux f p ≤ p) := by
  intro f
  induction f with
  | zero => intro p hp; simpa [normShiftAux] using hp
  | succ f ih =>
    intro p hp
    by_cases h : p < 2 ^ 53
    · have h0 : normShiftAux (f + 1) p = 0 := by
        simp only [normShiftAux, if_pos h]
      rw [h0]
      exact ⟨by simpa using h, Or.inl rfl⟩
    · have hlt : p / 2 < 2 ^ 53 * 2 ^ f := by
        rw [pow_succ] at hp
        omega
      obtain ⟨h1, h2⟩ := ih (p / 2) hlt
      simp only [normShiftAux, h, if_false]
      generalize normShiftAux f (p / 2) = s at h1 h2
      rw [pow_succ]
      refine ⟨by omega, Or.inr ?_⟩
      rcases h2 with h2 | h2
      · subst h2
        simp only [pow_zero, mul_one] at *
        omega
      · omega

theorem normShift_spec (p : Nat) :
    p < 2 ^ 53 * 2 ^ normShift p ∧ (normShift p = 0 ∨ 2 ^ 52 * 2 ^ normShift p ≤ p) := by
  apply normShiftAux_spec
  have h1 : p < 2 ^ p := Nat.lt_two_pow p
  have h2 : 0 < 2 ^ p := Nat.pos_of_ne_zero (by positivity)
  calc p < 2 ^ p := h1
    _ = 1 * 2 ^ p := (one_mul _).symm
    _ ≤ 2 ^ 53 * 2 ^ p := Nat.mul_le_mul_right _ (by norm_num)

theorem normShift_le (p n : Nat) (h : p < 2 ^ 53 * 2 ^ n) : normShift p ≤ n := by
  rcases (normShift_spec p).2 with h0 | h1
  · omega
  · have h2 : 2 ^ normShift p < 2 ^ (n + 1) := by
      rw [pow_succ]
      omega
    have := (Nat.pow_lt_pow_iff_right (by norm_num : 1 < 2)).mp h2
    omega

/-- Facts about the quotient and remainder that `round53` works with. -/
theorem round53_cases (p : Nat) :
    ∃ e te r : Nat, e = 2 ^ normShift p ∧ 0 < e ∧ te + r = p ∧ r < e ∧ e ∣ te ∧
      p < 2 ^ 53 * e ∧ (e = 1 ∨ 2 ^ 52 * e ≤ te) ∧
      ((2 * r ≤ e ∧ round53 p = te) ∨ (e ≤ 2 * r ∧ round53 p = te + e)) := by
  have he : 0 < 2 ^ normShift p := Nat.pos_of_ne_zero (by positivity)
  obtain ⟨h1, h2⟩ := normShift_spec p
  refine ⟨2 ^ normShift p, p / 2 ^ normShift p * 2 ^ normShift p, p % 2 ^ normShift p,
    rfl, he, Nat.div_add_mod' _ _, Nat.mod_lt _ he, Dvd.intro_left _ rfl, h1, ?_, ?_⟩
  · rcases h2 with h2 | h2
    · left; rw [h2]; rfl
    · right
      have : 2 ^ 52 ≤ p / 2 ^ normShift p := (Nat.le_div_iff_mul_le he).mpr h2
      exact Nat.mul_le_mul_right _ this
  · unfold round53
    simp only
    split_ifs with hc
    · left
      refine ⟨?_, rfl⟩
      rcases hc with hc | hc <;> omega
    · right
      refine ⟨?_, by rw [Nat.add_mul, Nat.one_mul]⟩
      by_contra hlt
      exact hc (Or.inl (by omega))

theorem round53_small (p : Nat) (h : p < 2 ^ 53) : round53 p = p := by
  have hs : normShift p = 0 := by
    have := normShift_le p 0 (by simpa using h)
    omega
  simp [round53, hs, Nat.mod_one]

theorem round53_upper (p : Nat) : 2 ^ 53 * round53 p ≤ (2 ^ 53 + 1) * p := by
  obtain ⟨e, te, r, -, he, hp, hr, -, -, h2, hc⟩ := round53_cases p
  rcases hc with ⟨_, hy⟩ | ⟨_, hy⟩ <;> rw [hy] <;> rcases h2 with h2 | h2 <;> omega

theorem round53_lower (p : Nat) : 2 ^ 53 * p ≤ (2 ^ 53 + 1) * round53 p := by
  obtain ⟨e, te, r, -, he, hp, hr, -, -, h2, hc⟩ := round53_cases p
  rcases hc with ⟨_, hy⟩ | ⟨_, hy⟩ <;> rw [hy] <;> rcases h2 with h2 | h2 <;> omega

/-- A multiple `g` of the rounding unit that lies less than half a unit above `p` is not
above the rounded value. -/
theorem round53_ge_of_grid (p g : Nat) (hd : 2 ^ normShift p ∣ g)
    (hg : 2 * g < 2 * p + 2 ^ normShift p) : g ≤ round53 p := by
  obtain ⟨e, te, r, hedef, he, hp, hr, ⟨a, ha⟩, -, -, hc⟩ := round53_cases p
  rw [← hedef] at hd hg
  obtain ⟨c, hcg⟩ := hd
  have hmul : c ≤ a ∨ c = a + 1 ∨ a + 2 ≤ c := by omega
  rcases hmul with h | h | h
  · have : e * c ≤ e * a := Nat.mul_le_mul_left _ h
    rcases hc with ⟨_, hy⟩ | ⟨_, hy⟩ <;> omega
  · subst h
    rw [Nat.mul_add, Nat.mul_one] at hcg
    rcases hc with ⟨_, hy⟩ | ⟨_, hy⟩ <;> omega
  · have : e * (a + 2) ≤ e * c := Nat.mul_le_mul_left _ h
    rw [Nat.mul_add] at this
    omega

/-- The significand of `BANDCUT` has 53 bits and `BANDCUT` lies within half a unit in the
last place of 3/100: it is the binary64 number that the literal `0.03` denotes. -/
theorem BANDCUT_nearest :
    2 ^ 52 ≤ BANDCUT.num ∧ BANDCUT.num < 2 ^ 53 ∧
      2 * (3 * 2 ^ BANDCUT.scale - 100 * BANDCUT.num) ≤ 100 ∧
      100 * BANDCUT.num ≤ 3 * 2 ^ BANDCUT.scale := by
  decide

/-- The significand of `BARSCALE` has 53 bits and `BARSCALE` lies within half a unit in the
last place of 1/20: it is the binary64 number that the literal `0.05` denotes. -/
theorem BARSCALE_nearest :
    2 ^ 52 ≤ BARSCALE.num ∧ BARSCALE.num < 2 ^ 53 ∧
      2 * (20 * BARSCALE.num - 2 ^ BARSCALE.scale) ≤ 20 ∧
      2 ^ BARSCALE.scale ≤ 20 * BARSCALE.num := by
  decide

/-- The binary64 product of an integer `q` by the literal `0.03`, converted to an
integer, is `3 * q / 100`: the rounding of the literal and of the product never moves the
result across an integer. -/
theorem bandcut_mul (q : Nat) (hq : q < 2 ^ 32) :
    round53 (q * 0x1EB851EB851EB8) / 2 ^ 58 = 3 * q / 100 := by
  have hup := round53_upper (q * 0x1EB851EB851EB8)
  have hlo := round53_lower (q * 0x1EB851EB851EB8)
  by_cases hr : 3 * q % 100 = 0
  · have hs : normShift (q * 0x1EB851EB851EB8) ≤ 58 :=
      normShift_le _ 58 (by norm_num; omega)
    have hsp := (normShift_spec (q * 0x1EB851EB851EB8)).1
    have hd : 2 ^ normShift (q * 0x1EB851EB851EB8) ∣ 3 * q / 100 * 2 ^ 58 :=
      Dvd.dvd.mul_left (pow_dvd_pow 2 hs) _
    have hge := round53_ge_of_grid (q * 0x1EB851EB851EB8) (3 * q / 100 * 2 ^ 58) hd (by
      generalize 2 ^ normShift (q * 0x1EB851EB851EB8) = e at hsp
      omega)
    omega
  · omega

/-- The binary64 evaluation of `k * (h * 0.05)`, converted to an integer, is `k * h / 20`:
neither the rounding of the literal nor the two roundings of the products move the result
across an integer. -/
theorem barscale_mul (k h : Nat) (hk : k < 2 ^ 17) (hh : h < 2 ^ 31) :
    round53 (round53 k * round53 (round53 h * 0x1999999999999A)) / 2 ^ 57 = k * h / 20 := by
  rw [round53_small k (by omega), round53_small h (by omega)]
  have h1up := Nat.mul_le_mul_left k (round53_upper (h * 0x1999999999999A))
  have h1lo := Nat.mul_le_mul_left k (round53_lower (h * 0x1999999999999A))
  have hup := round53_upper (k * round53 (h * 0x1999999999999A))
  have hlo := round53_lower (k * round53 (h * 0x1999999999999A))
  have hsp := (normShift_spec (k * round53 (h * 0x1999999999999A))).1
  have e1 : k * (2 ^ 53 * round53 (h * 0x1999999999999A)) =
      2 ^ 53 * (k * round53 (h * 0x1999999999999A)) := by ring
  have e2 : k * ((2 ^ 53 + 1) * (h * 0x1999999999999A)) =
      (2 ^ 53 + 1) * 0x1999999999999A * (k * h) := by ring
  have e3 : k * (2 ^ 53 * (h * 0x1999999999999A)) =
      2 ^ 53 * 0x1999999999999A * (k * h) := by ring
  have e4 : k * ((2 ^ 53 + 1) * round53 (h * 0x1999999999999A)) =
      (2 ^ 53 + 1) * (k * round53 (h * 0x1999999999999A)) := by ring
  rw [e1, e2] at h1up
  rw [e3, e4] at h1lo
  have hX : k * h < 2 ^ 48 := by
    calc k * h < 2 ^ 17 * 2 ^ 31 := Nat.mul_lt_mul'' hk hh
      _ = 2 ^ 48 := by norm_num
  by_cases hr : k * h % 20 = 0
  · have hs : normShift (k * round53 (h * 0x1999999999999A)) ≤ 57 := by
      apply normShift_le
      generalize k * round53 (h * 0x1999999999999A) = P2 at *
      generalize k * h = X at *
      norm_num
      omega
    have hd : 2 ^ normShift (k * round53 (h * 0x1999999999999A)) ∣ k * h / 20 * 2 ^ 57 :=
      Dvd.dvd.mul_left (pow_dvd_pow 2 hs) _
    have hge := round53_ge_of_grid (k * round53 (h * 0x1999999999999A))
      (k * h / 20 * 2 ^ 57) hd (by
        generalize 2 ^ normShift (k * round53 (h * 0x1999999999999A)) = e at hsp
        generalize k * round53 (h * 0x1999999999999A) = P2 at *
        generalize k * h = X at *
        omega)
    generalize round53 (k * round53 (h * 0x1999999999999A)) = y2 at *
    generalize k * round53 (h * 0x1999999999999A) = P2 at *
    generalize k * h = X at *
    omega
  · generalize round53 (k * round53 (h * 0x1999999999999A)) = y2 at *
    generalize k * round53 (h * 0x1999999999999A) = P2 at *
    generalize k * h = X at *
    omega

/-! ## Loops -/

/-- Invariant rule for `forFrom`: if every iteration in range succeeds and carries the
invariant from `j` to `j + 1`, the loop succeeds and the invariant holds at the end. -/
theorem forFrom_inv {σ : Type} (body : Nat → σ → Option σ) (Inv : Nat → σ → Prop) :
    ∀ (count start : Nat) (s : σ), Inv start s →
      (∀ j s0, start ≤ j → j < start + count → Inv j s0 →
        ∃ s1, body j s0 = some s1 ∧ Inv (j + 1) s1) →
      ∃ s1, forFrom body start count s = some s1 ∧ Inv (start + count) s1 := by
  intro count
  induction count with
  | zero => intro start s h _; exact ⟨s, rfl, h⟩
  | succ count ih =>
    intro start s h hb
    obtain ⟨s1, h1, h2⟩ := hb start s (Nat.le_refl _) (by omega) h
    obtain ⟨s2, h3, h4⟩ := ih (start + 1) s1 h2 (fun j s0 hj1 hj2 hI =>
      hb j s0 (by omega) (by omega) hI)
    refine ⟨s2, ?_, ?_⟩
    · simp only [forFrom, h1]
      exact h3
    · have : start + (count + 1) = start + 1 + count := by omega
      rw [this]
      exact h4

/-- Failure rule for `forFrom`: if some iteration in range fails in every state that
satisfies a preserved invariant, the loop fails. -/
theorem forFrom_fails {σ : Type} (body : Nat → σ → Option σ) (Inv : σ → Prop) (j0 : Nat)
    (hpres : ∀ j s0 s1, Inv s0 → body j s0 = some s1 → Inv s1)
    (hfail : ∀ s0, Inv s0 → body j0 s0 = none) :
    ∀ (count start : Nat) (s : σ), Inv s → start ≤ j0 → j0 < start + count →
      forFrom body start count s = none := by
  intro count
  induction count with
  | zero => intro start s _ h1 h2; omega
  | succ count ih =>
    intro start s h h1 h2
    by_cases hj : start = j0
    · subst hj
      simp only [forFrom, hfail s h]
    · simp only [forFrom]
      cases hb : body start s with
      | none => rfl
      | some s1 => exact ih (start + 1) s1 (hpres start s s1 h hb) (by omega) (by omega)

/-! ## `clearall`, `init` and `update` -/

theorem N_eq : nsamples / CHANNELS = 48000 := by decide

theorem nsamples_eq : nsamples = 96000 := by decide

theorem clearall_body_spec (i : Nat) (fr : frame) (h1 : i < fr.in_.length)
    (h2 : i < fr.out.length) :
    clearall_body i fr =
      some { fr with in_ := fr.in_.set i 0, out := fr.out.set i ⟨0, 0⟩ } := by
  simp [clearall_body, store, h1, h2]

/-- The function `clearall` succeeds on an allocated frame, keeps the lengths, sets
`gotsamples` to 0 and fills `in` with zeros. -/
theorem clearall_spec (fr : frame) (h1 : fr.in_.length = nsamples / CHANNELS)
    (h2 : fr.out.length = nsamples / CHANNELS) :
    ∃ fr1, clearall fr = some fr1 ∧ fr1.gotsamples = 0 ∧ fr1.buf = fr.buf ∧
      fr1.res = fr.res ∧ fr1.in_.length = nsamples / CHANNELS ∧
      fr1.out.length = nsamples / CHANNELS ∧
      ∀ j, j < nsamples / CHANNELS → fr1.in_[j]? = some 0 := by
  have key := forFrom_inv clearall_body
    (fun i (f : frame) => f.gotsamples = 0 ∧ f.buf = fr.buf ∧ f.res = fr.res ∧
      f.in_.length = nsamples / CHANNELS ∧ f.out.length = nsamples / CHANNELS ∧
      ∀ j, j < i → f.in_[j]? = some 0)
    (nsamples / CHANNELS) 0 { fr with gotsamples := 0 }
    ⟨rfl, rfl, rfl, h1, h2, fun j hj => absurd hj (Nat.not_lt_zero _)⟩
    (by
      intro j s0 _ hj ⟨a1, a2, a3, a4, a5, a6⟩
      rw [Nat.zero_add] at hj
      refine ⟨_, clearall_body_spec j s0 (by omega) (by omega), a1, a2, a3, ?_, ?_, ?_⟩
      · simpa using a4
      · simpa using a5
      · intro k hk
        simp only [List.getElem?_set]
        by_cases hjk : j = k
        · simp [hjk]; omega
        · simp only [hjk, if_false]
          exact a6 k (by omega))
  obtain ⟨fr1, e, b1, b2, b3, b4, b5, b6⟩ := key
  refine ⟨fr1, e, b1, b2, b3, b4, b5, ?_⟩
  intro j hj
  exact b6 j (by omega)

/-- The mean of two 16-bit samples is an integer of at most 17 bits divided by 2, a number
that binary64 represents exactly: the three `double` operations of `update` on `in[i]` (the
conversion of the first sample, the addition of the second, the division by 2) do not
round. -/
theorem mean_exact (a b : Int) (ha : -2 ^ 15 ≤ a ∧ a < 2 ^ 15)
    (hb : -2 ^ 15 ≤ b ∧ b < 2 ^ 15) :
    ∃ m : Int, -2 ^ 16 ≤ m ∧ m < 2 ^ 16 ∧ ((a : ℚ) + (b : ℚ)) / 2 = (m : ℚ) / 2 :=
  ⟨a + b, by omega, by omega, by push_cast; ring⟩

/-- One iteration of the loop of `update` on frame `i`, when the sample pair was delivered:
`in[i]` becomes the exact mean of the pair and nothing else changes. -/
theorem update_body_pair (i : Nat) (fr : frame) (a b : Int) (hi : i < fr.in_.length)
    (hg : 0 ≤ fr.gotsamples) (hlt : (i : Int) < fr.gotsamples / 2)
    (ha : fr.buf[2 * i]? = some a) (hb : fr.buf[2 * i + 1]? = some b) :
    update_body i fr = some { fr with in_ := fr.in_.set i (((a : ℚ) + (b : ℚ)) / 2) } := by
  have ht : Int.tdiv fr.gotsamples (CHANNELS : Int) = fr.gotsamples / 2 :=
    Int.tdiv_eq_ediv hg (by decide)
  have ha1 : fr.buf[i * CHANNELS + 0]? = some a := by
    rw [← ha]; congr 1; simp [CHANNELS]; omega
  have hb1 : fr.buf[i * CHANNELS + 1]? = some b := by
    rw [← hb]; congr 1; simp [CHANNELS]; omega
  simp only [update_body, store, modify, hi, if_true, ht, hlt, ha1, hb1, List.length_set,
    List.getElem?_set_self, List.set_set]
  simp [CHANNELS]

/-- One iteration of the loop of `update` on a frame that was not delivered: `in[i]`
becomes 0. -/
theorem update_body_zero (i : Nat) (fr : frame) (hi : i < fr.in_.length)
    (hg : 0 ≤ fr.gotsamples) (hlt : ¬ (i : Int) < fr.gotsamples / 2) :
    update_body i fr = some { fr with in_ := fr.in_.set i 0 } := by
  have ht : Int.tdiv fr.gotsamples (CHANNELS : Int) = fr.gotsamples / 2 :=
    Int.tdiv_eq_ediv hg (by decide)
  simp only [update_body, store, hi, if_true, ht, hlt, if_false]

/-- The loop of `update`, started on a frame whose `in` has `nsamples / CHANNELS` entries
and whose `buf` has `nsamples` entries, with `0 ≤ gotsamples ≤ nsamples`. -/
theorem update_loop_spec (fr : frame) (hin : fr.in_.length = nsamples / CHANNELS)
    (hbuf : fr.buf.length = nsamples) (hg0 : 0 ≤ fr.gotsamples)
    (hg1 : fr.gotsamples ≤ nsamples) :
    ∃ fr1, forLoop (nsamples / CHANNELS) update_body fr = some fr1 ∧
      fr1.gotsamples = fr.gotsamples ∧ fr1.out = fr.out ∧
      fr1.in_.length = nsamples / CHANNELS ∧
      ∀ j, j < nsamples / CHANNELS →
        ((j : Int) < fr.gotsamples / 2 → ∃ a b, fr.buf[2 * j]? = some a ∧
          fr.buf[2 * j + 1]? = some b ∧ fr1.in_[j]? = some (((a : ℚ) + (b : ℚ)) / 2)) ∧
        (¬ (j : Int) < fr.gotsamples / 2 → fr1.in_[j]? = some 0) := by
  have key := forFrom_inv update_body
    (fun i (f : frame) => f.buf = fr.buf ∧ f.gotsamples = fr.gotsamples ∧ f.out = fr.out ∧
      f.in_.length = nsamples / CHANNELS ∧
      ∀ j, j < i →
        ((j : Int) < fr.gotsamples / 2 → ∃ a b, fr.buf[2 * j]? = some a ∧
          fr.buf[2 * j + 1]? = some b ∧ f.in_[j]? = some (((a : ℚ) + (b : ℚ)) / 2)) ∧
        (¬ (j : Int) < fr.gotsamples / 2 → f.in_[j]? = some 0))
    (nsamples / CHANNELS) 0 fr
    ⟨rfl, rfl, rfl, hin, fun j hj => absurd hj (Nat.not_lt_zero _)⟩
    (by
      intro j s0 _ hj ⟨a1, a2, a3, a4, a5⟩
      rw [Nat.zero_add] at hj
      have hj4 : j < s0.in_.length := by omega
      have hkeep : ∀ (v : ℚ) (k : Nat), k < j → (s0.in_.set j v)[k]? = s0.in_[k]? := by
        intro v k hk
        rw [List.getElem?_set]
        have : ¬ j = k := by omega
        simp only [this, if_false]
      have hnew : ∀ v : ℚ, (s0.in_.set j v)[j]? = some v := by
        intro v
        rw [List.getElem?_set]
        simp only [if_true, hj4]
      by_cases hlt : (j : Int) < fr.gotsamples / 2
      · have hN : nsamples = 96000 := nsamples_eq
        have hb0 : 2 * j < fr.buf.length := by omega
        have hb1 : 2 * j + 1 < fr.buf.length := by omega
        have ea : fr.buf[2 * j]? = some (fr.buf[2 * j]) := List.getElem?_eq_getElem hb0
        have eb : fr.buf[2 * j + 1]? = some (fr.buf[2 * j + 1]) :=
          List.getElem?_eq_getElem hb1
        refine ⟨_, update_body_pair j s0 _ _ hj4 (by rw [a2]; exact hg0)
          (by rw [a2]; exact hlt) (by rw [a1]; exact ea) (by rw [a1]; exact eb),
          a1, a2, a3, ?_, ?_⟩
        · simpa using a4
        · intro k hk
          by_cases hkj : k = j
          · subst hkj
            exact ⟨fun _ => ⟨_, _, ea, eb, hnew _⟩, fun h => absurd hlt h⟩
          · have hk1 : k < j := by omega
            obtain ⟨c1, c2⟩ := a5 k hk1
            constructor
            · intro h
              obtain ⟨a, b, e1, e2, e3⟩ := c1 h
              exact ⟨a, b, e1, e2, by simp only [hkeep _ k hk1]; exact e3⟩
            · intro h
              simp only [hkeep _ k hk1]
              exact c2 h
      · refine ⟨_, update_body_zero j s0 hj4 (by rw [a2]; exact hg0)
          (by rw [a2]; exact hlt), a1, a2, a3, ?_, ?_⟩
        · simpa using a4
        · intro k hk
          by_cases hkj : k = j
          · subst hkj
            exact ⟨fun h => absurd h hlt, fun _ => hnew _⟩
          · have hk1 : k < j := by omega
            obtain ⟨c1, c2⟩ := a5 k hk1
            constructor
            · intro h
              obtain ⟨a, b, e1, e2, e3⟩ := c1 h
              exact ⟨a, b, e1, e2, by simp only [hkeep _ k hk1]; exact e3⟩
            · intro h
              simp only [hkeep _ k hk1]
              exact c2 h)
  obtain ⟨fr1, e, _, b2, b3, b4, b5⟩ := key
  exact ⟨fr1, e, b2, b3, b4, fun j hj => b5 j (by omega)⟩

/-- C1. Channel reducer postcondition of `update`: for every allocated frame, every raw
block of `nsamples` samples left in `buf` by `read` and every read result `n` (`-1`, or a
byte count up to the size of `buf`), `update` returns; afterwards `gotsamples` is `n / 2`
(0 after a failed read), `in` has exactly `nsamples / CHANNELS` entries, entry `i` is the
exact mean `(buf[2i] + buf[2i+1]) / 2` when `i < gotsamples / 2` and 0 otherwise; in
particular all entries are 0 when `gotsamples = 0`. -/
theorem update_channel_reducer (fftw_execute : List ℚ → List complex → List complex)
    (fr : frame) (rd : read_result) (hal : allocated fr)
    (hbuf : rd.buf.length = nsamples) (hn1 : -1 ≤ rd.n)
    (hn2 : rd.n ≤ 2 * (nsamples : Int)) :
    ∃ fr1, update fftw_execute fr rd = some fr1 ∧
      fr1.gotsamples = (if rd.n = -1 then 0 else rd.n / 2) ∧
      fr1.in_.length = nsamples / CHANNELS ∧
      (∀ i, i < nsamples / CHANNELS →
        ((i : Int) < fr1.gotsamples / 2 → ∃ a b, rd.buf[2 * i]? = some a ∧
          rd.buf[2 * i + 1]? = some b ∧ fr1.in_[i]? = some (((a : ℚ) + (b : ℚ)) / 2)) ∧
        (¬ (i : Int) < fr1.gotsamples / 2 → fr1.in_[i]? = some 0)) ∧
      (fr1.gotsamples = 0 → ∀ x ∈ fr1.in_, x = 0) := by
  obtain ⟨_, _, hin, hout⟩ := hal
  have hN : nsamples = 96000 := nsamples_eq
  have main : ∃ fr1, update fftw_execute fr rd = some fr1 ∧
      fr1.gotsamples = (if rd.n = -1 then 0 else rd.n / 2) ∧
      fr1.in_.length = nsamples / CHANNELS ∧
      (∀ i, i < nsamples / CHANNELS →
        ((i : Int) < fr1.gotsamples / 2 → ∃ a b, rd.buf[2 * i]? = some a ∧
          rd.buf[2 * i + 1]? = some b ∧ fr1.in_[i]? = some (((a : ℚ) + (b : ℚ)) / 2)) ∧
        (¬ (i : Int) < fr1.gotsamples / 2 → fr1.in_[i]? = some 0)) := by
    by_cases hn : rd.n = -1
    · obtain ⟨fr1, e, g, _, _, l1, _, z⟩ := clearall_spec { fr with buf := rd.buf } hin hout
      refine ⟨fr1, by simp only [update, hn, if_true]; exact e, by rw [g, if_pos hn], l1, ?_⟩
      intro i hi
      rw [g]
      exact ⟨fun h => absurd h (by omega), fun _ => z i hi⟩
    · have hgs : ((toSizeT rd.n / 2 : Nat) : Int) = rd.n / 2 := by
        unfold toSizeT
        omega
      obtain ⟨fr1, e, g, _, l1, z⟩ := update_loop_spec
        { fr with buf := rd.buf, gotsamples := ((toSizeT rd.n / 2 : Nat) : Int) }
        hin hbuf (by simp only; omega) (by simp only; rw [hgs]; omega)
      simp only [hgs] at e g z
      refine ⟨{ fr1 with out := fftw_execute fr1.in_ fr1.out }, ?_, ?_, l1, ?_⟩
      · simp only [update, hn, if_false, hgs, e]
      · simp only [g, if_neg hn]
      · intro i hi
        simp only [g]
        exact z i hi
  obtain ⟨fr1, e, g, l1, z⟩ := main
  refine ⟨fr1, e, g, l1, z, ?_⟩
  intro h0 x hx
  obtain ⟨i, hi⟩ := List.mem_iff_getElem?.mp hx
  have hil : i < fr1.in_.length := by
    by_contra hc
    rw [List.getElem?_eq_none (by omega)] at hi
    exact Option.noConfusion hi
  have := (z i (by omega)).2 (by rw [h0]; omega)
  rw [this] at hi
  exact (Option.some.inj hi).symm

/-! ## Peaks -/

theorem bar_top_eq (h b : Nat) : bar_top h b = h - min b h := by
  unfold bar_top MIN
  split_ifs <;> omega

theorem bar_top_le (h b : Nat) : bar_top h b ≤ h := by
  rw [bar_top_eq]; omega

/-- The peak update on a row: snap when the bar top is not below the peak, else decay by
one row, hidden when the decayed peak and the bar top both reach the bottom. -/
theorem peak_update_row (h t : Nat) (p : Int) (ht : t ≤ h) (hh : h < 2 ^ 31)
    (hp0 : 0 ≤ p) (hp1 : p < h) :
    peak_update h t p =
      if (t : Int) ≤ p then (t : Int)
      else if p + 1 = h ∧ t = h then PK_HIDDEN else p + 1 := by
  unfold peak_update toSizeT toInt PK_HIDDEN
  simp only
  split_ifs <;> omega

/-- The peak update on a hidden peak: the peak appears at the bar top, unless the bar is
empty. -/
theorem peak_update_hidden (h t : Nat) (hh : h < 2 ^ 31) :
    (t < h → peak_update h t PK_HIDDEN = (t : Int)) ∧
    (t = h → peak_update h t PK_HIDDEN = PK_HIDDEN) := by
  unfold peak_update toSizeT toInt PK_HIDDEN
  simp only
  refine ⟨?_, ?_⟩ <;> intro _ <;> split_ifs <;> omega

/-- C2. Per-column peak update rule (peaks enabled): for a height `h` (a value of the
`int` variable `LINES`), a bar height `b` with bar top `t = h - min b h` and a previous peak
`p` that is a row, `0 ≤ p < h` (so `1 ≤ h`), the new peak is `t` when `t ≤ p` (snap);
otherwise it is `p + 1` (decay by one row), except that it is `PK_HIDDEN` when `p + 1 = h`
and `t = h`. -/
theorem peak_update_rule (h b : Nat) (p : Int) (hh : h < 2 ^ 31)
    (hp0 : 0 ≤ p) (hp1 : p < h) :
    bar_top h b = h - min b h ∧
    peak_update h (bar_top h b) p =
      if (bar_top h b : Int) ≤ p then (bar_top h b : Int)
      else if p + 1 = h ∧ bar_top h b = h then PK_HIDDEN else p + 1 := by
  exact ⟨bar_top_eq h b, peak_update_row h (bar_top h b) p (bar_top_le h b) hh hp0 hp1⟩

/-- C3. Peak range invariant: for every height `0 ≤ h < 2^31`, every bar height and every
previously stored value of `peak[i]` whatsoever, the value after the per-column update is
`PK_HIDDEN` or a row index in `[0, h)`. -/
theorem peak_update_range (h b : Nat) (p : Int) (hh : h < 2 ^ 31) :
    peak_update h (bar_top h b) p = PK_HIDDEN ∨
      (0 ≤ peak_update h (bar_top h b) p ∧ peak_update h (bar_top h b) p < h) := by
  have ht := bar_top_le h b
  generalize bar_top h b = t at ht
  unfold peak_update toSizeT toInt PK_HIDDEN
  simp only
  split_ifs <;> omega

/-- C10. A hidden peak reappears at the bar top, for every height `h` (a value of the `int`
variable `LINES`) and every bar height: the comparison `peak[i] >= ybegin`
converts `PK_HIDDEN` to the largest `size_t`, so the snap branch is taken; with a bar top
`t < h` the peak becomes `t`, with `t = h` it stays hidden. -/
theorem hidden_peak_snaps (h b : Nat) (hh : h < 2 ^ 31) :
    toSizeT PK_HIDDEN = 2 ^ 64 - 1 ∧ toSizeT PK_HIDDEN ≥ bar_top h b ∧
    (bar_top h b < h → peak_update h (bar_top h b) PK_HIDDEN = (bar_top h b : Int)) ∧
    (bar_top h b = h → peak_update h (bar_top h b) PK_HIDDEN = PK_HIDDEN) := by
  have ht := bar_top_le h b
  have e : toSizeT PK_HIDDEN = 2 ^ 64 - 1 := by decide
  refine ⟨e, ?_, peak_update_hidden h (bar_top h b) hh⟩
  rw [e]
  omega

theorem bar_top_zero (h : Nat) : bar_top h 0 = h := by
  rw [bar_top_eq]; omega

theorem falling_hidden (h : Nat) (hh : h < 2 ^ 31) (k : Nat) :
    falling_peak h k PK_HIDDEN = PK_HIDDEN := by
  unfold falling_peak
  apply Function.iterate_fixed
  rw [bar_top_zero]
  exact (peak_update_hidden h h hh).2 rfl

theorem falling_formula (h : Nat) (hh : h < 2 ^ 31) :
    ∀ (k : Nat) (p : Int), 0 ≤ p → p < h →
      falling_peak h k p = if (k : Int) < h - p then p + k else PK_HIDDEN := by
  intro k
  induction k with
  | zero =>
    intro p hp0 hp1
    have : ((0 : Nat) : Int) < h - p := by omega
    rw [if_pos this]
    simp [falling_peak]
  | succ k ih =>
    intro p hp0 hp1
    have hstep : peak_update h (bar_top h 0) p = if p + 1 = h then PK_HIDDEN else p + 1 := by
      rw [bar_top_zero, peak_update_row h h p (Nat.le_refl _) hh hp0 hp1]
      by_cases hlast : p + 1 = h
      · have : ¬ (h : Int) ≤ p := by omega
        simp [this, hlast]
      · have : ¬ (h : Int) ≤ p := by omega
        simp [this, hlast]
    have hunf : falling_peak h (k + 1) p = falling_peak h k (peak_update h (bar_top h 0) p) := by
      unfold falling_peak
      exact Function.iterate_succ_apply _ _ _
    rw [hunf, hstep]
    by_cases hlast : p + 1 = h
    · rw [if_pos hlast, falling_hidden h hh k]
      have : ¬ ((k + 1 : Nat) : Int) < h - p := by omega
      rw [if_neg this]
    · rw [if_neg hlast, ih (p + 1) (by omega) (by omega)]
      by_cases hk : (k : Int) < h - (p + 1)
      · have : ((k + 1 : Nat) : Int) < h - p := by omega
        rw [if_pos hk, if_pos this]
        push_cast
        omega
      · have : ¬ ((k + 1 : Nat) : Int) < h - p := by omega
        rw [if_neg hk, if_neg this]

/-- C4. Falling-peak trajectory: for a height `h` (a value of the `int` variable `LINES`)
and a starting peak `0 ≤ p < h` (so `1 ≤ h`), when the bar height of the column is 0 on every
tick, the peak is `p + k` after `k` ticks for `1 ≤ k < h - p`, it is `PK_HIDDEN` after
`h - p` ticks and on every later tick, and no peak glyph is printed from then on; a column
that starts hidden stays hidden and never shows a peak. -/
theorem falling_peak_trajectory (h : Nat) (p : Int) (hh : h < 2 ^ 31)
    (hp0 : 0 ≤ p) (hp1 : p < h) :
    (∀ k : Nat, 1 ≤ k → (k : Int) < h - p → falling_peak h k p = p + k) ∧
    (∀ k : Nat, (h : Int) - p ≤ k →
      falling_peak h k p = PK_HIDDEN ∧ peak_cell (falling_peak h k p) = none) ∧
    (∀ k : Nat, falling_peak h k PK_HIDDEN = PK_HIDDEN ∧
      peak_cell (falling_peak h k PK_HIDDEN) = none) := by
  refine ⟨?_, ?_, ?_⟩
  · intro k _ hk
    rw [falling_formula h hh k p hp0 hp1, if_pos hk]
  · intro k hk
    have : ¬ (k : Int) < h - p := by omega
    rw [falling_formula h hh k p hp0 hp1, if_neg this]
    exact ⟨rfl, rfl⟩
  · intro k
    rw [falling_hidden h hh k]
    exact ⟨rfl, rfl⟩

/-- The loop body of `draw_spectrum` for column `i` with peaks enabled: the stored peak is
replaced by `peak_update` of it, at the bar top of the column, and the peak glyph is printed
unless the new peak is hidden. -/
theorem column_body_peak (fpc i bh : Nat) (pk : Int) (fr : frame) (cols : List column)
    (hb : bar_height fr.res fpc i = some bh) (hp : fr.peak[i]? = some pk) :
    column_body true fpc i (fr, cols) =
      some ({ fr with peak := fr.peak.set i (peak_update fr.height (bar_top fr.height bh) pk) },
        cols ++ [⟨List.range' (bar_top fr.height bh) (fr.height - bar_top fr.height bh),
          peak_cell (peak_update fr.height (bar_top fr.height bh) pk)⟩]) := by
  simp only [column_body, hb, hp, if_true]

/-! ## Colour bands -/

/-- A percentage of a height below `2^31`, computed in `size_t` and stored in an `int`,
is not changed by the two conversions. -/
theorem scaled_bound (c h : Nat) (hc : c ≤ 100) (hh : h < 2 ^ 31) :
    toInt ((c * h % 2 ^ 64 / 100 : Nat) : Int) = ((c * h / 100 : Nat) : Int) := by
  have h1 : c * h ≤ 100 * h := Nat.mul_le_mul_right h hc
  have h2 : c * h % 2 ^ 64 = c * h := Nat.mod_eq_of_lt (by omega)
  have h3 : c * h / 100 ≤ h := Nat.div_le_of_le_mul h1
  rw [h2]
  generalize c * h / 100 = q at h3
  unfold toInt
  omega

/-- The scaled table for a height below `2^31`: band `k` covers the rows from
`min_k * h / 100` up to `max_k * h / 100`. -/
theorem scaled_table (h : Nat) (hh : h < 2 ^ 31) :
    (scale_color_ranges h color_ranges).map (fun cr => (cr.scaled_min, cr.scaled_max)) =
      [ (0, ((5 * h / 100 : Nat) : Int)),
        (((5 * h / 100 : Nat) : Int), ((20 * h / 100 : Nat) : Int)),
        (((20 * h / 100 : Nat) : Int), ((40 * h / 100 : Nat) : Int)),
        (((40 * h / 100 : Nat) : Int), ((72 * h / 100 : Nat) : Int)),
        (((72 * h / 100 : Nat) : Int), ((85 * h / 100 : Nat) : Int)),
        (((85 * h / 100 : Nat) : Int), ((98 * h / 100 : Nat) : Int)),
        (((98 * h / 100 : Nat) : Int), (h : Int)) ] := by
  have e0 : toSizeT 0 = 0 := by decide
  have e5 : toSizeT 5 = 5 := by decide
  have e20 : toSizeT 20 = 20 := by decide
  have e40 : toSizeT 40 = 40 := by decide
  have e72 : toSizeT 72 = 72 := by decide
  have e85 : toSizeT 85 = 85 := by decide
  have e98 : toSizeT 98 = 98 := by decide
  have e100 : toSizeT 100 = 100 := by decide
  have z : ((0 * h / 100 : Nat) : Int) = 0 := by simp
  have t : ((100 * h / 100 : Nat) : Int) = (h : Int) := by
    rw [Nat.mul_div_cancel_left h (by norm_num)]
  simp only [scale_color_ranges, color_ranges, scale_range, List.map, e0, e5, e20, e40, e72,
    e85, e98, e100, scaled_bound 0 h (by norm_num) hh, scaled_bound 5 h (by norm_num) hh,
    scaled_bound 20 h (by norm_num) hh, scaled_bound 40 h (by norm_num) hh,
    scaled_bound 72 h (by norm_num) hh, scaled_bound 85 h (by norm_num) hh,
    scaled_bound 98 h (by norm_num) hh, scaled_bound 100 h (by norm_num) hh, z, t]

theorem in_band_iff (y : Int) (cr : color_range) :
    in_band y cr = true ↔ cr.scaled_min ≤ y ∧ y < cr.scaled_max := by
  simp [in_band]

/-- C5. Colour-band partition: for every height `0 < h < 2^31` (so that neither `100 * h`
nor the conversion to `int` overflows), after the scaling of the table every row `y` in
`[0, h)` lies in exactly one band, which is the one that `setcolor` takes, and no row
`y ≥ h` lies in any band. -/
theorem color_band_partition (h : Nat) (y : Int) (h0 : 0 < h) (hh : h < 2 ^ 31) :
    (0 ≤ y → y < h →
      ((scale_color_ranges h color_ranges).filter (in_band y)).length = 1 ∧
      ∃ cr, (scale_color_ranges h color_ranges).find? (in_band y) = some cr ∧
        (scale_color_ranges h color_ranges).filter (in_band y) = [cr] ∧
        ∀ on_, setcolor true (scale_color_ranges h color_ranges) on_ y =
          some (decide (on_ ≠ 0), cr.pair)) ∧
    ((h : Int) ≤ y →
      (scale_color_ranges h color_ranges).filter (in_band y) = [] ∧
      ∀ on_, setcolor true (scale_color_ranges h color_ranges) on_ y = none) := by
  have tab := scaled_table h hh
  have hlen : (scale_color_ranges h color_ranges).length = 7 := by
    simp [scale_color_ranges, color_ranges]
  match hs : scale_color_ranges h color_ranges, hlen with
  | [c0, c1, c2, c3, c4, c5, c6], _ =>
    rw [hs] at tab
    simp only [List.map, List.cons.injEq, Prod.mk.injEq, and_true] at tab
    obtain ⟨⟨a0, b0⟩, ⟨a1, b1⟩, ⟨a2, b2⟩, ⟨a3, b3⟩, ⟨a4, b4⟩, ⟨a5, b5⟩, ⟨a6, b6⟩⟩ := tab
    have i0 := in_band_iff y c0
    have i1 := in_band_iff y c1
    have i2 := in_band_iff y c2
    have i3 := in_band_iff y c3
    have i4 := in_band_iff y c4
    have i5 := in_band_iff y c5
    have i6 := in_band_iff y c6
    rw [a0, b0] at i0
    rw [a1, b1] at i1
    rw [a2, b2] at i2
    rw [a3, b3] at i3
    rw [a4, b4] at i4
    rw [a5, b5] at i5
    rw [a6, b6] at i6
    constructor
    · intro hy0 hy1
      have hpos : ((0 : Int) ≤ y ∧ y < ((5 * h / 100 : Nat) : Int)) ∨
          (((5 * h / 100 : Nat) : Int) ≤ y ∧ y < ((20 * h / 100 : Nat) : Int)) ∨
          (((20 * h / 100 : Nat) : Int) ≤ y ∧ y < ((40 * h / 100 : Nat) : Int)) ∨
          (((40 * h / 100 : Nat) : Int) ≤ y ∧ y < ((72 * h / 100 : Nat) : Int)) ∨
          (((72 * h / 100 : Nat) : Int) ≤ y ∧ y < ((85 * h / 100 : Nat) : Int)) ∨
          (((85 * h / 100 : Nat) : Int) ≤ y ∧ y < ((98 * h / 100 : Nat) : Int)) ∨
          (((98 * h / 100 : Nat) : Int) ≤ y ∧ y < (h : Int)) := by omega
      rcases hpos with hc | hc | hc | hc | hc | hc | hc
      · have n0 : in_band y c0 = true := by rw [i0]; omega
        have n1 : in_band y c1 = false := by rw [← Bool.not_eq_true, i1]; omega
        have n2 : in_band y c2 = false := by rw [← Bool.not_eq_true, i2]; omega
        have n3 : in_band y c3 = false := by rw [← Bool.not_eq_true, i3]; omega
        have n4 : in_band y c4 = false := by rw [← Bool.not_eq_true, i4]; omega
        have n5 : in_band y c5 = false := by rw [← Bool.not_eq_true, i5]; omega
        have n6 : in_band y c6 = false := by rw [← Bool.not_eq_true, i6]; omega
        simp [setcolor, List.filter, List.find?, n0, n1, n2, n3, n4, n5, n6]
      · have n0 : in_band y c0 = false := by rw [← Bool.not_eq_true, i0]; omega
        have n1 : in_band y c1 = true := by rw [i1]; omega
        have n2 : in_band y c2 = false := by rw [← Bool.not_eq_true, i2]; omega
        have n3 : in_band y c3 = false := by rw [← Bool.not_eq_true, i3]; omega
        have n4 : in_band y c4 = false := by rw [← Bool.not_eq_true, i4]; omega
        have n5 : in_band y c5 = false := by rw [← Bool.not_eq_true, i5]; omega
        have n6 : in_band y c6 = false := by rw [← Bool.not_eq_true, i6]; omega
        simp [setcolor, List.filter, List.find?, n0, n1, n2, n3, n4, n5, n6]
      · have n0 : in_band y c0 = false := by rw [← Bool.not_eq_true, i0]; omega
        have n1 : in_band y c1 = false := by rw [← Bool.not_eq_true, i1]; omega
        have n2 : in_band y c2 = true := by rw [i2]; omega
        have n3 : in_band y c3 = false := by rw [← Bool.not_eq_true, i3]; omega
        have n4 : in_band y c4 = false := by rw [← Bool.not_eq_true, i4]; omega
        have n5 : in_band y c5 = false := by rw [← Bool.not_eq_true, i5]; omega
        have n6 : in_band y c6 = false := by rw [← Bool.not_eq_true, i6]; omega
        simp [setcolor, List.filter, List.find?, n0, n1, n2, n3, n4, n5, n6]
      · have n0 : in_band y c0 = false := by rw [← Bool.not_eq_true, i0]; omega
        have n1 : in_band y c1 = false := by rw [← Bool.not_eq_true, i1]; omega
        have n2 : in_band y c2 = false := by rw [← Bool.not_eq_true, i2]; omega
        have n3 : in_band y c3 = true := by rw [i3]; omega
        have n4 : in_band y c4 = false := by rw [← Bool.not_eq_true, i4]; omega
        have n5 : in_band y c5 = false := by rw [← Bool.not_eq_true, i5]; omega
        have n6 : in_band y c6 = false := by rw [← Bool.not_eq_true, i6]; omega
        simp [setcolor, List.filter, List.find?, n0, n1, n2, n3, n4, n5, n6]
      · have n0 : in_band y c0 = false := by rw [← Bool.not_eq_true, i0]; omega
        have n1 : in_band y c1 = false := by rw [← Bool.not_eq_true, i1]; omega
        have n2 : in_band y c2 = false := by rw [← Bool.not_eq_true, i2]; omega
        have n3 : in_band y c3 = false := by rw [← Bool.not_eq_true, i3]; omega
        have n4 : in_band y c4 = true := by rw [i4]; omega
        have n5 : in_band y c5 = false := by rw [← Bool.not_eq_true, i5]; omega
        have n6 : in_band y c6 = false := by rw [← Bool.not_eq_true, i6]; omega
        simp [setcolor, List.filter, List.find?, n0, n1, n2, n3, n4, n5, n6]
      · have n0 : in_band y c0 = false := by rw [← Bool.not_eq_true, i0]; omega
        have n1 : in_band y c1 = false := by rw [← Bool.not_eq_true, i1]; omega
        have n2 : in_band y c2 = false := by rw [← Bool.not_eq_true, i2]; omega
        have n3 : in_band y c3 = false := by rw [← Bool.not_eq_true, i3]; omega
        have n4 : in_band y c4 = false := by rw [← Bool.not_eq_true, i4]; omega
        have n5 : in_band y c5 = true := by rw [i5]; omega
        have n6 : in_band y c6 = false := by rw [← Bool.not_eq_true, i6]; omega
        simp [setcolor, List.filter, List.find?, n0, n1, n2, n3, n4, n5, n6]
      · have n0 : in_band y c0 = false := by rw [← Bool.not_eq_true, i0]; omega
        have n1 : in_band y c1 = false := by rw [← Bool.not_eq_true, i1]; omega
        have n2 : in_band y c2 = false := by rw [← Bool.not_eq_true, i2]; omega
        have n3 : in_band y c3 = false := by rw [← Bool.not_eq_true, i3]; omega
        have n4 : in_band y c4 = false := by rw [← Bool.not_eq_true, i4]; omega
        have n5 : in_band y c5 = false := by rw [← Bool.not_eq_true, i5]; omega
        have n6 : in_band y c6 = true := by rw [i6]; omega
        simp [setcolor, List.filter, List.find?, n0, n1, n2, n3, n4, n5, n6]
    · intro hy
      have n0 : in_band y c0 = false := by
        rw [← Bool.not_eq_true, i0]; omega
      have n1 : in_band y c1 = false := by
        rw [← Bool.not_eq_true, i1]; omega
      have n2 : in_band y c2 = false := by
        rw [← Bool.not_eq_true, i2]; omega
      have n3 : in_band y c3 = false := by
        rw [← Bool.not_eq_true, i3]; omega
      have n4 : in_band y c4 = false := by
        rw [← Bool.not_eq_true, i4]; omega
      have n5 : in_band y c5 = false := by
        rw [← Bool.not_eq_true, i5]; omega
      have n6 : in_band y c6 = false := by
        rw [← Bool.not_eq_true, i6]; omega
      simp [setcolor, List.filter, List.find?, n0, n1, n2, n3, n4, n5, n6]

/-! ## Scaling of the magnitudes -/

/-- One iteration of the scaling loop at an index inside both arrays: only `res[i]`
changes, and it receives the result of the three truncating assignments. -/
theorem scale_body_spec (cabs : complex → binary64) (i : Nat) (fr : frame) (z : complex)
    (hi : i < fr.res.length) (hz : fr.out[i]? = some z) :
    scale_body cabs i fr = some { fr with res := (fr.res.set i
      (binary64.trunc (dmul (binary64.ofNat
          (binary64.trunc (cabs z) % 2 ^ 32 / (nsamples / CHANNELS)))
        (dmul (binary64.ofNat fr.height) BARSCALE)) % 2 ^ 32)) } := by
  simp only [scale_body, hz, store, modify, hi, if_true, List.length_set,
    List.getElem?_set_self, List.set_set]

/-- One iteration of the scaling loop at an index outside `out` fails. -/
theorem scale_body_outside (cabs : complex → binary64) (i : Nat) (fr : frame)
    (hi : fr.out.length ≤ i) : scale_body cabs i fr = none := by
  have : fr.out[i]? = none := List.getElem?_eq_none hi
  simp only [scale_body, this]

/-- An iteration of the scaling loop that succeeds keeps the lengths of `out` and `res`. -/
theorem scale_body_lengths (cabs : complex → binary64) (i : Nat) (fr fr1 : frame)
    (h : scale_body cabs i fr = some fr1) :
    fr1.out.length = fr.out.length ∧ fr1.res.length = fr.res.length := by
  by_cases hi : i < fr.res.length
  · cases hz : fr.out[i]? with
    | none =>
      simp only [scale_body, hz] at h
      exact Option.noConfusion h
    | some z =>
      rw [scale_body_spec cabs i fr z hi hz] at h
      have := Option.some.inj h
      subst this
      simp
  · cases hz : fr.out[i]? with
    | none =>
      simp only [scale_body, hz] at h
      exact Option.noConfusion h
    | some z =>
      simp only [scale_body, hz, store, hi, if_false] at h
      exact Option.noConfusion h

/-- With the bound `nsamples / CHANNELS`, the bound of the loops of `clearall` and
`update`, the scaling loop stays inside both arrays and succeeds. -/
theorem scale_loop_inside (cabs : complex → binary64) (fr : frame) (hal : allocated fr) :
    ∃ fr1, forLoop (nsamples / CHANNELS) (scale_body cabs) fr = some fr1 := by
  obtain ⟨_, hres, _, hout⟩ := hal
  obtain ⟨fr1, e, _⟩ := forFrom_inv (scale_body cabs)
    (fun _ (f : frame) => f.out.length = nsamples / CHANNELS ∧
      f.res.length = nsamples / CHANNELS)
    (nsamples / CHANNELS) 0 fr ⟨hout, hres⟩
    (by
      intro j s0 _ hj ⟨a1, a2⟩
      rw [Nat.zero_add] at hj
      have hz : s0.out[j]? = some (s0.out[j]) := List.getElem?_eq_getElem (by omega)
      refine ⟨_, scale_body_spec cabs j s0 _ (by omega) hz, ?_, ?_⟩
      · exact a1
      · simpa using a2)
  exact ⟨fr1, e⟩

/-- The scaling loop as written, with the bound `nsamples / 1`, fails on every frame whose
`out` has `nsamples / CHANNELS` entries: the access `out[nsamples / CHANNELS]` is outside. -/
theorem scale_freqs_fails (cabs : complex → binary64) (fr : frame)
    (ho : fr.out.length = nsamples / CHANNELS) : scale_freqs cabs fr = none :=
  forFrom_fails (scale_body cabs)
    (fun f : frame => f.out.length = nsamples / CHANNELS) (nsamples / CHANNELS)
    (fun j s0 s1 hI hb => by
      show s1.out.length = nsamples / CHANNELS
      rw [(scale_body_lengths cabs j s0 s1 hb).1]
      exact hI)
    (fun s0 hI => scale_body_outside cabs _ s0 (by omega))
    (nsamples / 1) 0 fr ho (Nat.zero_le _) (by decide)

/-- On an allocated frame `draw_spectrum` does not get past the scaling loop, whatever the
terminal size and the flags. -/
theorem draw_spectrum_fails (cabs : complex → binary64) (peaks colors : Bool)
    (COLS LINES : Int) (ranges : List color_range) (fr : frame) (hal : allocated fr) :
    draw_spectrum cabs peaks colors COLS LINES ranges fr = none := by
  obtain ⟨_, _, _, ho⟩ := hal
  unfold draw_spectrum
  by_cases hc : peaks = true ∧ toSizeT COLS ≠ fr.width_old
  · simp only [if_pos hc]
    cases hf : freqs_per_col (toSizeT COLS) with
    | none => rfl
    | some fpc =>
      simp only
      rw [scale_freqs_fails cabs _ (by exact ho)]
  · simp only [if_neg hc]
    cases hf : freqs_per_col (toSizeT COLS) with
    | none => rfl
    | some fpc =>
      simp only
      rw [scale_freqs_fails cabs _ (by exact ho)]

/-- The frame that `init` returns is allocated. -/
theorem init_allocated : ∃ fr, init = some fr ∧ allocated fr := by
  obtain ⟨fr, e, _, hb, hr, hi, ho, _⟩ := clearall_spec
    { width := 0, width_old := 0, height := 0, peak := [],
      buf := List.replicate nsamples 0,
      res := List.replicate (nsamples / CHANNELS) 0,
      in_ := List.replicate (nsamples / CHANNELS) 0,
      gotsamples := 0,
      out := List.replicate (nsamples / CHANNELS) ⟨0, 0⟩ }
    (List.length_replicate _ _) (List.length_replicate _ _)
  have hres : fr.res.length = nsamples / CHANNELS := by
    rw [hr]; exact List.length_replicate _ _
  have hbuf : fr.buf.length = nsamples := by
    rw [hb]; exact List.length_replicate _ _
  exact ⟨fr, e, hbuf, hres, hi, ho⟩

/-- C6. The magnitude-scaling loop of `draw_spectrum` runs `i` up to `nsamples / 1`, not
`nsamples / CHANNELS`: on the frame that `init` returns, whose `res` and `out` have
`nsamples / CHANNELS` entries, the access at `i = nsamples / CHANNELS` is outside `out`
and the loop fails, for every `cabs`; so does `draw_spectrum`. -/
theorem scale_loop_overruns :
    ∃ fr, init = some fr ∧ allocated fr ∧ nsamples / CHANNELS < nsamples / 1 ∧
      fr.out[nsamples / CHANNELS]? = none ∧
      ∀ cabs : complex → binary64,
        scale_body cabs (nsamples / CHANNELS) fr = none ∧ scale_freqs cabs fr = none ∧
        ∀ peaks colors COLS LINES ranges,
          draw_spectrum cabs peaks colors COLS LINES ranges fr = none := by
  obtain ⟨fr, e, hal⟩ := init_allocated
  have ho : fr.out.length = nsamples / CHANNELS := hal.2.2.2
  refine ⟨fr, e, hal, by decide, List.getElem?_eq_none (by omega), ?_⟩
  intro cabs
  exact ⟨scale_body_outside cabs _ fr (by omega), scale_freqs_fails cabs fr ho,
    fun peaks colors COLS LINES ranges =>
      draw_spectrum_fails cabs peaks colors COLS LINES ranges fr hal⟩

theorem trunc_eq_floor (d : binary64) : binary64.trunc d = ⌊binary64.toRat d⌋₊ := by
  unfold binary64.trunc binary64.toRat
  have : ((2 : ℚ) ^ d.scale) = (((2 ^ d.scale : Nat)) : ℚ) := by push_cast; rfl
  rw [this, Nat.floor_div_eq_div]

theorem floor_scaled (k h : Nat) :
    ⌊(k : ℚ) * ((h : ℚ) * (1 / 20))⌋₊ = k * h / 20 := by
  have : (k : ℚ) * ((h : ℚ) * (1 / 20)) = ((k * h : Nat) : ℚ) / ((20 : Nat) : ℚ) := by
    push_cast; ring
  rw [this, Nat.floor_div_eq_div]

/-- The value that the three assignments of the scaling loop leave in `res[i]`. -/
theorem scaled_value (tm h : Nat) (hm : tm < 2 ^ 32) (hh : h < 2 ^ 31)
    (hfit : tm / (nsamples / CHANNELS) * h / 20 < 2 ^ 32) :
    binary64.trunc (dmul (binary64.ofNat (tm % 2 ^ 32 / (nsamples / CHANNELS)))
      (dmul (binary64.ofNat h) BARSCALE)) % 2 ^ 32 = tm / (nsamples / CHANNELS) * h / 20 := by
  rw [Nat.mod_eq_of_lt hm]
  have hN : nsamples / CHANNELS = 48000 := N_eq
  have hk : tm / (nsamples / CHANNELS) < 2 ^ 17 := by rw [hN]; omega
  have key := barscale_mul (tm / (nsamples / CHANNELS)) h hk hh
  simp only [binary64.trunc, dmul, binary64.ofNat, BARSCALE, Nat.zero_add]
  rw [key]
  exact Nat.mod_eq_of_lt hfit

/-- C8. Magnitude scaling, with the truncations: `res` is an array of `unsigned`, so each of
the three assignments truncates. For every bin `i < nsamples / CHANNELS` of an allocated frame, with
`m = cabs(out[i])`, `⌊m⌋ < 2^32`, a height below `2^31` and a result that fits `unsigned`,
the value stored in `res[i]` is `⌊⌊⌊m⌋ / N⌋ * (h * BAR_SCALE)⌋`, that is
`(⌊m⌋ / N) * h / 20` in integer arithmetic, the product being evaluated in binary64. -/
theorem scale_body_value (cabs : complex → binary64) (i : Nat) (fr : frame) (z : complex)
    (hal : allocated fr) (hi : i < nsamples / CHANNELS) (hz : fr.out[i]? = some z)
    (hm : ⌊binary64.toRat (cabs z)⌋₊ < 2 ^ 32) (hh : fr.height < 2 ^ 31)
    (hfit : ⌊binary64.toRat (cabs z)⌋₊ / (nsamples / CHANNELS) * fr.height / 20 < 2 ^ 32) :
    ∃ fr1, scale_body cabs i fr = some fr1 ∧
      fr1.res[i]? =
        some (⌊binary64.toRat (cabs z)⌋₊ / (nsamples / CHANNELS) * fr.height / 20) ∧
      ⌊binary64.toRat (cabs z)⌋₊ / (nsamples / CHANNELS) * fr.height / 20 =
        ⌊((⌊binary64.toRat (cabs z)⌋₊ / (nsamples / CHANNELS) : Nat) : ℚ) *
          ((fr.height : ℚ) * (1 / 20))⌋₊ := by
  obtain ⟨_, hres, _, _⟩ := hal
  rw [← trunc_eq_floor] at hm hfit ⊢
  refine ⟨_, scale_body_spec cabs i fr z (by omega) hz, ?_, (floor_scaled _ _).symm⟩
  simp only [List.getElem?_set_self (show i < fr.res.length by omega)]
  rw [scaled_value _ _ hm hh hfit]

/-! ## Bins per column and bar heights -/

/-- The number of bins per column: the quotient `(nsamples / CHANNELS) / width` is an
integer division, and the binary64 product by 0.03 truncates to `3 * q / 100`. -/
theorem freqs_per_col_eq (w : Nat) (hw : 1 ≤ w) :
    freqs_per_col w = some (3 * (nsamples / CHANNELS / w) / 100) := by
  have hN : nsamples / CHANNELS = 48000 := N_eq
  have hq : nsamples / CHANNELS / w ≤ 48000 := by rw [hN]; exact Nat.div_le_self _ _
  have key := bandcut_mul (nsamples / CHANNELS / w) (by omega)
  have hw0 : ¬ w = 0 := by omega
  simp only [freqs_per_col, hw0, if_false, binary64.trunc, dmul, binary64.ofNat, BANDCUT,
    Nat.zero_add, round53_small (nsamples / CHANNELS / w) (by omega)]
  rw [key, Nat.mod_eq_of_lt (by omega)]

theorem floor_bandcut (q : Nat) : ⌊(q : ℚ) * (3 / 100)⌋₊ = 3 * q / 100 := by
  have : (q : ℚ) * (3 / 100) = ((3 * q : Nat) : ℚ) / ((100 : Nat) : ℚ) := by
    push_cast; ring
  rw [this, Nat.floor_div_eq_div]

/-- C7. Frequency bins per column, with the integer quotient: for every width `w ≥ 1`,
`freqs_per_col` is `⌊⌊N / w⌋ * BAND_CUT⌋` with `N = nsamples / CHANNELS = 48000` and
`BAND_CUT = 3/100`, the quotient `N / w` being the integer quotient:
`freqs_per_col = 3 * (48000 / w) / 100` in integer arithmetic. -/
theorem freqs_per_col_formula (w : Nat) (hw : 1 ≤ w) :
    nsamples / CHANNELS = 48000 ∧
    freqs_per_col w = some ⌊((nsamples / CHANNELS / w : Nat) : ℚ) * (3 / 100)⌋₊ ∧
    freqs_per_col w = some (3 * (48000 / w) / 100) := by
  refine ⟨N_eq, ?_, ?_⟩
  · rw [floor_bandcut]; exact freqs_per_col_eq w hw
  · rw [← N_eq]; exact freqs_per_col_eq w hw

/-- C7, counterexample: at width 9 the code computes `48000 / 9 = 5333` and
`⌊5333 * 0.03⌋ = 159`, whereas `⌊(48000 / 9) * (3/100)⌋` with the exact quotient is
`⌊1440 / 9⌋ = 160`. -/
theorem freqs_per_col_not_exact :
    freqs_per_col 9 = some 159 ∧ spec_freqs_per_col 9 = 160 ∧ 1440 / 9 = 160 := by
  refine ⟨by decide, ?_, by decide⟩
  unfold spec_freqs_per_col
  rw [N_eq]
  have : ((48000 : Nat) : ℚ) / ((9 : Nat) : ℚ) * (3 / 100) = ((160 : Nat) : ℚ) := by
    push_cast; norm_num
  rw [this, Nat.floor_natCast]

/-- The averaging of a column succeeds when the divisor is not zero and the bins of the
column lie inside `res`. -/
theorem bar_height_inside (res : List Nat) (fpc i : Nat) (hf : 1 ≤ fpc)
    (hb : i * fpc + fpc ≤ res.length) (hr : res.length < 2 ^ 32) :
    ∃ v, bar_height res fpc i = some v := by
  obtain ⟨sum, e, _⟩ := forFrom_inv
    (fun j acc =>
      match res[(i * fpc + j) % 2 ^ 32]? with
      | none => none
      | some r => some ((acc + r) % 2 ^ 64))
    (fun _ _ => True) fpc 0 0 trivial
    (by
      intro j acc _ hj _
      rw [Nat.zero_add] at hj
      have h1 : (i * fpc + j) % 2 ^ 32 = i * fpc + j := Nat.mod_eq_of_lt (by omega)
      have h2 : res[(i * fpc + j) % 2 ^ 32]? = some (res[i * fpc + j]) := by
        rw [h1]; exact List.getElem?_eq_getElem (by omega)
      exact ⟨(acc + res[i * fpc + j]) % 2 ^ 64, by simp only [h2], trivial⟩)
  have hf0 : ¬ fpc = 0 := by omega
  exact ⟨sum / fpc, by simp only [bar_height, forLoop, e, hf0, if_false]⟩

/-- The averaging of a column divides by zero when `freqs_per_col` is 0. -/
theorem bar_height_zero_divisor (res : List Nat) (i : Nat) : bar_height res 0 i = none := by
  simp [bar_height, forLoop, forFrom]

/-- C9. Safety of the bar averaging for `N = nsamples / CHANNELS = 48000`: for every width
`1 ≤ w ≤ 1411`, `freqs_per_col ≥ 1`, every index `i * freqs_per_col + j` read from `res`
(`i < w`, `j < freqs_per_col`) is below `1440 ≤ N`, and the averaging of every column
returns; the bound is tight: for every `w ≥ 1412`, `freqs_per_col = 0` and the division
`bar_height /= freqs_per_col` divides by zero. -/
theorem bar_average_safe :
    (∀ w : Nat, 1 ≤ w → w ≤ 1411 →
      ∃ fpc, freqs_per_col w = some fpc ∧ 1 ≤ fpc ∧ 1440 ≤ nsamples / CHANNELS ∧
        ∀ i, i < w →
          (∀ j, j < fpc → (i * fpc + j) % 2 ^ 32 = i * fpc + j ∧ i * fpc + j < 1440) ∧
          ∀ res : List Nat, res.length = nsamples / CHANNELS →
            ∃ v, bar_height res fpc i = some v) ∧
    (∀ w : Nat, 1412 ≤ w →
      freqs_per_col w = some 0 ∧ ∀ (res : List Nat) (i : Nat), bar_height res 0 i = none) := by
  have hN : nsamples / CHANNELS = 48000 := N_eq
  constructor
  · intro w hw1 hw2
    have hq1 : 34 ≤ 48000 / w := (Nat.le_div_iff_mul_le (by omega)).mpr (by omega)
    have hq2 : w * (48000 / w) ≤ 48000 := Nat.mul_div_le _ _
    have hf : w * (3 * (48000 / w) / 100) ≤ 1440 := by
      have h1 : 100 * (3 * (48000 / w) / 100) ≤ 3 * (48000 / w) := Nat.mul_div_le _ _
      have h2 := Nat.mul_le_mul_left w h1
      have e1 : w * (100 * (3 * (48000 / w) / 100)) = 100 * (w * (3 * (48000 / w) / 100)) := by
        ring
      have e2 : w * (3 * (48000 / w)) = 3 * (w * (48000 / w)) := by ring
      rw [e1, e2] at h2
      omega
    refine ⟨3 * (48000 / w) / 100, by rw [← hN]; exact freqs_per_col_eq w hw1, by omega,
      by omega, ?_⟩
    intro i hi
    have hrow : i * (3 * (48000 / w) / 100) + 3 * (48000 / w) / 100 ≤ 1440 := by
      have h3 : (i + 1) * (3 * (48000 / w) / 100) ≤ w * (3 * (48000 / w) / 100) :=
        Nat.mul_le_mul_right _ (by omega)
      rw [Nat.add_mul, Nat.one_mul] at h3
      omega
    constructor
    · intro j hj
      have hlt : i * (3 * (48000 / w) / 100) + j < 1440 := by omega
      exact ⟨Nat.mod_eq_of_lt (by omega), hlt⟩
    · intro res hres
      exact bar_height_inside res _ i (by omega) (by omega) (by omega)
  · intro w hw
    have hq : 48000 / w < 34 := (Nat.div_lt_iff_lt_mul (by omega)).mpr (by omega)
    refine ⟨?_, bar_height_zero_divisor⟩
    rw [freqs_per_col_eq w (by omega), hN]
    congr 1
    omega

/-! ## Evaluations on sample inputs -/

theorem sample_out_length : sample_out.length = nsamples / CHANNELS := by
  rw [sample_out, List.length_cons, List.length_cons, List.length_replicate, N_eq]

theorem sample_buf_length : sample_buf.length = nsamples := by
  rw [sample_buf, List.length_cons, List.length_cons, List.length_cons, List.length_cons,
    List.length_replicate, nsamples_eq]

theorem sample_frame_allocated : allocated sample_frame :=
  ⟨List.length_replicate _ _, List.length_replicate _ _, List.length_replicate _ _,
    sample_out_length⟩

/-- C1, witness: a read of 6 bytes (3 samples) delivers one full frame; `in[0]` is the mean
of 100 and 300, `in[1]` is 0 although `buf` holds the samples -7 and 8 at frame 1. -/
theorem update_channel_reducer_witness :
    allocated sample_frame ∧ sample_read.buf.length = nsamples ∧
      ∃ fr1, update (fun _ o => o) sample_frame sample_read = some fr1 ∧
        fr1.gotsamples = 3 ∧ fr1.in_.length = 48000 ∧ fr1.in_[0]? = some 200 ∧
        fr1.in_[1]? = some 0 := by
  refine ⟨sample_frame_allocated, sample_buf_length, ?_⟩
  obtain ⟨fr1, e, g, l, z, _⟩ := update_channel_reducer (fun _ o => o) sample_frame
    sample_read sample_frame_allocated sample_buf_length (by decide)
    (by rw [nsamples_eq]; decide)
  have hn : sample_read.n = 6 := rfl
  have g3 : fr1.gotsamples = 3 := by rw [g, hn]; decide
  refine ⟨fr1, e, g3, by rw [l, N_eq], ?_, ?_⟩
  · obtain ⟨a, b, ha, hb, hv⟩ := (z 0 (by rw [N_eq]; decide)).1 (by rw [g3]; decide)
    have ha1 : sample_read.buf[2 * 0]? = some 100 := by
      show sample_buf[0]? = some 100
      rw [sample_buf]; exact List.getElem?_cons_zero
    have hb1 : sample_read.buf[2 * 0 + 1]? = some 300 := by
      show sample_buf[1]? = some 300
      rw [sample_buf, List.getElem?_cons_succ]; exact List.getElem?_cons_zero
    rw [ha1] at ha
    rw [hb1] at hb
    have ea := Option.some.inj ha
    have eb := Option.some.inj hb
    subst ea
    subst eb
    rw [hv]
    norm_num
  · exact (z 1 (by rw [N_eq]; decide)).2 (by rw [g3]; decide)

/-- C2, witness: height 20, bar height 5 (bar top 15): a peak at row 17 snaps to row 15. -/
theorem peak_update_rule_witness :
    bar_top 20 5 = 20 - min 5 20 ∧
    peak_update 20 (bar_top 20 5) 17 =
      if (bar_top 20 5 : Int) ≤ 17 then (bar_top 20 5 : Int)
      else if (17 : Int) + 1 = (20 : Nat) ∧ bar_top 20 5 = 20 then PK_HIDDEN else 17 + 1 :=
  peak_update_rule 20 5 17 (by decide) (by decide) (by decide)

/-- C3, witness: height 20, bar height 0, a stale peak at row 35 from a taller terminal:
the new value is `PK_HIDDEN`. -/
theorem peak_update_range_witness :
    peak_update 20 (bar_top 20 0) 35 = PK_HIDDEN ∨
      (0 ≤ peak_update 20 (bar_top 20 0) 35 ∧ peak_update 20 (bar_top 20 0) 35 < (20 : Nat)) :=
  peak_update_range 20 0 35 (by decide)

/-- C4, witness: height 20, peak at row 5: after 14 ticks the peak is at row 19, after 15
ticks it is hidden. -/
theorem falling_peak_trajectory_witness :
    falling_peak 20 14 5 = 19 ∧ falling_peak 20 15 5 = PK_HIDDEN ∧
      peak_cell (falling_peak 20 15 5) = none ∧ falling_peak 20 3 PK_HIDDEN = PK_HIDDEN :=
  ⟨(falling_peak_trajectory 20 5 (by decide) (by decide) (by decide)).1 14 (by decide)
      (by decide),
    ((falling_peak_trajectory 20 5 (by decide) (by decide) (by decide)).2.1 15
      (by decide)).1,
    ((falling_peak_trajectory 20 5 (by decide) (by decide) (by decide)).2.1 15
      (by decide)).2,
    ((falling_peak_trajectory 20 5 (by decide) (by decide) (by decide)).2.2 3).1⟩

/-- C5, witness: height 24: row 10 lies in exactly one band and `setcolor` finds one;
row 24 lies in no band. -/
theorem color_band_partition_witness :
    ((scale_color_ranges 24 color_ranges).filter (in_band 10)).length = 1 ∧
      (scale_color_ranges 24 color_ranges).filter (in_band 24) = [] :=
  ⟨((color_band_partition 24 10 (by decide) (by decide)).1 (by decide) (by decide)).1,
    ((color_band_partition 24 24 (by decide) (by decide)).2 (by decide)).1⟩

/-- C7, witness: width 90 gives 15 bins per column (`48000 / 90 = 533`,
`3 * 533 / 100 = 15`). -/
theorem freqs_per_col_formula_witness : freqs_per_col 90 = some 15 :=
  (freqs_per_col_formula 90 (by decide)).2.2

/-- C8, witness: bin 0 of the sample frame holds a magnitude of 96000000; with 20 lines the
stored value is `96000000 / 48000 * 20 / 20 = 2000`. -/
theorem scale_body_value_witness :
    ∃ fr1, scale_body cabs_axis 0 sample_frame = some fr1 ∧ fr1.res[0]? = some 2000 := by
  have hz : sample_frame.out[0]? = some ⟨96000000, 0⟩ := by
    show sample_out[0]? = some ⟨96000000, 0⟩
    rw [sample_out]; exact List.getElem?_cons_zero
  have hc : binary64.trunc (cabs_axis ⟨96000000, 0⟩) = 96000000 := by decide
  have hh : sample_frame.height = 20 := rfl
  rw [trunc_eq_floor] at hc
  obtain ⟨fr1, e, v, _⟩ := scale_body_value cabs_axis 0 sample_frame ⟨96000000, 0⟩
    sample_frame_allocated (by rw [N_eq]; decide) hz (by rw [hc]; decide)
    (by rw [hh]; decide) (by rw [hc, hh, N_eq]; decide)
  rw [hc, hh, N_eq] at v
  exact ⟨fr1, e, v⟩

/-- C8, counterexample: bin 1 of the sample frame holds a magnitude of 1; the code stores
`⌊1⌋ / 48000 = 0`, then `0 * (20 * 0.05) = 0`, whereas the specification's value
`1 / 48000 * (20 * (1/20))` is `1 / 48000`. -/
theorem scale_body_truncates :
    allocated sample_frame ∧ sample_frame.out[1]? = some ⟨1, 0⟩ ∧
      binary64.toRat (cabs_axis ⟨1, 0⟩) = 1 ∧ sample_frame.height = 20 ∧
      ∃ fr1, scale_body cabs_axis 1 sample_frame = some fr1 ∧ fr1.res[1]? = some 0 ∧
        spec_magnitude 1 20 = 1 / 48000 ∧ ((0 : Nat) : ℚ) ≠ spec_magnitude 1 20 := by
  have hz : sample_frame.out[1]? = some ⟨1, 0⟩ := by
    show sample_out[1]? = some ⟨1, 0⟩
    rw [sample_out, List.getElem?_cons_succ]; exact List.getElem?_cons_zero
  have hr : sample_frame.res.length = nsamples / CHANNELS := sample_frame_allocated.2.1
  have hc : binary64.trunc (cabs_axis ⟨1, 0⟩) = 1 := by decide
  have hs : spec_magnitude 1 20 = 1 / 48000 := by
    unfold spec_magnitude
    rw [N_eq]
    norm_num
  refine ⟨sample_frame_allocated, hz, ?_, rfl, _,
    scale_body_spec cabs_axis 1 sample_frame _ (by rw [hr, N_eq]; decide) hz, ?_, hs, ?_⟩
  · have e : cabs_axis ⟨1, 0⟩ = ⟨1, 0⟩ := by decide
    rw [e]
    norm_num [binary64.toRat]
  · have hv : binary64.trunc (dmul (binary64.ofNat
        (binary64.trunc (cabs_axis ⟨1, 0⟩) % 2 ^ 32 / (nsamples / CHANNELS)))
        (dmul (binary64.ofNat sample_frame.height) BARSCALE)) % 2 ^ 32 = 0 := by
      rw [hc, N_eq]
      decide
    simp only [List.getElem?_set_self (show 1 < sample_frame.res.length by
      rw [hr, N_eq]; decide)]
    rw [hv]
  · rw [hs]
    norm_num

/-- C9, witness: width 1411 still gives one bin per column, and column 1410 reads
`res[1410]`; width 1412 gives none. -/
theorem bar_average_safe_witness :
    (∃ fpc, freqs_per_col 1411 = some fpc ∧ 1 ≤ fpc) ∧ freqs_per_col 1412 = some 0 := by
  obtain ⟨fpc, e, h1, _⟩ := bar_average_safe.1 1411 (by decide) (by decide)
  exact ⟨⟨fpc, e, h1⟩, (bar_average_safe.2 1412 (by decide)).1⟩

/-- C10, witness: height 20, bar height 5: a hidden peak appears at row 15. -/
theorem hidden_peak_snaps_witness :
    bar_top 20 5 < 20 ∧ peak_update 20 (bar_top 20 5) PK_HIDDEN = (bar_top 20 5 : Int) :=
  ⟨by decide, (hidden_peak_snaps 20 5 (by decide)).2.2.1 (by decide)⟩

end Nausea
